import Mathlib

/-!
Verification of the DPS production-line scheduling and release-date engine
(`process_east_file`, `process_sakatama_file`, `calc_release_time` and the
month-window derivation in `render_east`, from `pages/5_DPS.py`).

Time instants are modelled as rational numbers of hours since the epoch day
1970-01-01 (day number 0, a Thursday).  A calendar date is its day number
(an integer); pandas `Timestamp(date) + Timedelta(hours=h)` becomes
`date * 24 + h` hours.  A duration of `x` days is `x * 24` hours.

Rational arithmetic is performed by executable wrappers (`qadd`, `qmul`,
`qdiv`) built on `mkRat`, because the standard `Rat` operations are
irreducible; bridge lemmas identify them with `+`, `*`, `/` on `ℚ`.
-/

/-! ### Executable rational arithmetic -/

/-- Executable addition on `ℚ` (agrees with `+`, see `qadd_eq`). -/
def qadd (a b : ℚ) : ℚ := mkRat (a.num * b.den + b.num * a.den) (a.den * b.den)

/-- Executable multiplication on `ℚ` (agrees with `*`, see `qmul_eq`). -/
def qmul (a b : ℚ) : ℚ := mkRat (a.num * b.num) (a.den * b.den)

/-- Executable inverse on `ℚ` (agrees with `⁻¹`, and sends `0` to `0`). -/
def qinv (a : ℚ) : ℚ :=
  if a.num < 0 then mkRat (-(a.den : Int)) (-a.num).toNat
  else mkRat (a.den : Int) a.num.toNat

/-- Executable division on `ℚ` (agrees with `/`; division by `0` yields `0`,
mirroring that the source never divides by zero thanks to its guard). -/
def qdiv (a b : ℚ) : ℚ := qmul a (qinv b)

/-- Executable floor of a rational, as the Euclidean quotient of the
numerator by the denominator. -/
def ratFloor (q : ℚ) : Int := q.num / (q.den : Int)

theorem qadd_eq (a b : ℚ) : qadd a b = a + b := (Rat.add_def' a b).symm

theorem qmul_eq (a b : ℚ) : qmul a b = a * b := by
  rw [Rat.mul_def, Rat.normalize_eq_mkRat]; rfl

theorem qinv_eq (a : ℚ) : qinv a = a⁻¹ := by
  rw [Rat.inv_def']
  unfold qinv
  split
  · next h =>
    rw [Rat.mkRat_eq_divInt]
    rw [show (((-a.num).toNat : Int)) = -a.num from Int.toNat_of_nonneg (by omega)]
    exact Rat.neg_divInt_neg _ _
  · next h =>
    rw [Rat.mkRat_eq_divInt]
    rw [show ((a.num.toNat : Int)) = a.num from Int.toNat_of_nonneg (by omega)]

theorem qdiv_eq (a b : ℚ) : qdiv a b = a / b := by
  rw [div_eq_mul_inv, qdiv, qmul_eq, qinv_eq]

theorem ratFloor_eq (q : ℚ) : ratFloor q = ⌊q⌋ := (Rat.floor_def).symm

/-! ### Code-point lexicographic order on strings

Python compares strings code point by code point; pandas
`sort_values("Material", ascending=True)` uses this order. -/

/-- Lexicographic (non-strict) comparison of character lists by code point. -/
def lexLe : List Char → List Char → Bool
  | [], _ => true
  | _ :: _, [] => false
  | a :: as, b :: bs =>
    if a.toNat < b.toNat then true
    else if b.toNat < a.toNat then false
    else lexLe as bs

/-- Lexicographic comparison of strings by code point, as Python does. -/
def strLe (a b : String) : Bool := lexLe a.data b.data

theorem lexLe_total : ∀ as bs, lexLe as bs = true ∨ lexLe bs as = true := by
  intro as
  induction as with
  | nil => intro bs; left; rfl
  | cons a as ih =>
    intro bs
    cases bs with
    | nil => right; rfl
    | cons b bs =>
      simp only [lexLe]
      rcases Nat.lt_trichotomy a.toNat b.toNat with h | h | h
      · left; simp [h]
      · have h1 : ¬ a.toNat < b.toNat := by omega
        have h2 : ¬ b.toNat < a.toNat := by omega
        rcases ih bs with hc | hc
        · left; simp [h1, h2, hc]
        · right; simp [h1, h2, hc]
      · right; simp [h]

theorem lexLe_trans : ∀ as bs cs, lexLe as bs = true → lexLe bs cs = true →
    lexLe as cs = true := by
  intro as
  induction as with
  | nil => intro bs cs _ _; rfl
  | cons a as ih =>
    intro bs cs hab hbc
    cases bs with
    | nil => simp [lexLe] at hab
    | cons b bs =>
      cases cs with
      | nil => simp [lexLe] at hbc
      | cons c cs =>
        simp only [lexLe] at hab hbc ⊢
        rcases Nat.lt_trichotomy a.toNat b.toNat with h1 | h1 | h1
        · rcases Nat.lt_trichotomy b.toNat c.toNat with h2 | h2 | h2
          · simp [show a.toNat < c.toNat by omega]
          · simp [show a.toNat < c.toNat by omega]
          · simp [show ¬ b.toNat < c.toNat by omega, h2] at hbc
        · rcases Nat.lt_trichotomy b.toNat c.toNat with h2 | h2 | h2
          · simp [show a.toNat < c.toNat by omega]
          · have hab1 : lexLe as bs = true := by
              simpa [show ¬ a.toNat < b.toNat by omega,
                show ¬ b.toNat < a.toNat by omega] using hab
            have hbc1 : lexLe bs cs = true := by
              simpa [show ¬ b.toNat < c.toNat by omega,
                show ¬ c.toNat < b.toNat by omega] using hbc
            simp [show ¬ a.toNat < c.toNat by omega,
              show ¬ c.toNat < a.toNat by omega, ih bs cs hab1 hbc1]
          · simp [show ¬ b.toNat < c.toNat by omega, h2] at hbc
        · simp [show ¬ a.toNat < b.toNat by omega, h1] at hab

/-! ### Calendar arithmetic

`pandas` timestamps carry real calendar dates; `.dt.month` and `.weekday()`
are the civil month and the Monday-based weekday.  `civilFromDays` is the
standard civil-from-days conversion for the proleptic Gregorian calendar
(day number 0 = 1970-01-01). -/

/-- Convert a day number (0 = 1970-01-01) to `(year, month, day)` in the
proleptic Gregorian calendar. -/
def civilFromDays (z0 : Int) : Int × Int × Int :=
  let z := z0 + 719468
  let era := (if 0 ≤ z then z else z - 146096) / 146097
  let doe := z - era * 146097
  let yoe := (doe - doe / 1460 + doe / 36524 - doe / 146096) / 365
  let y := yoe + era * 400
  let doy := doe - (365 * yoe + yoe / 4 - yoe / 100)
  let mp := (5 * doy + 2) / 153
  let d := doy - (153 * mp + 2) / 5 + 1
  let m := mp + (if mp < 10 then 3 else -9)
  (if m ≤ 2 then y + 1 else y, m, d)

/-- Monday-based weekday of a day number (`0` = Monday, ..., `5` = Saturday,
`6` = Sunday); day 0 = 1970-01-01 was a Thursday (`3`). -/
def wday (d : Int) : Int := (d + 3) % 7

/-- The day number an instant (in hours) falls on. -/
def dayOfInstant (t : ℚ) : Int := ratFloor (qdiv t 24)

/-- Civil month (1-12) of a day number. -/
def monthOfDay (d : Int) : Int := (civilFromDays d).2.1

/-- Civil month of the day an instant falls on (what `.dt.month` returns). -/
def monthOf (t : ℚ) : Int := monthOfDay (dayOfInstant t)

theorem dayOfInstant_eq (t : ℚ) : dayOfInstant t = ⌊t / 24⌋ := by
  rw [dayOfInstant, qdiv_eq, ratFloor_eq]

theorem dayOfInstant_add (t : ℚ) (c : ℚ) (k : Int) (h : c = (k : ℚ) * 24) :
    dayOfInstant (qadd t c) = dayOfInstant t + k := by
  rw [dayOfInstant_eq, dayOfInstant_eq, qadd_eq, h,
    show (t + (k : ℚ) * 24) / 24 = t / 24 + (k : ℚ) by ring, Int.floor_add_int]

/-! ### Data model

`Row` is one normalized production record as it reaches the per-line
scheduling pass of `process_east_file`: nominal date (`_orig_date` as a day
number), material code, line code, the sheet's `Kg_TU` (may be missing),
positive `Qty`, and the `Speed` attached from `fg_master_data`
(may be missing). -/

/-- One normalized production record (a row of `out` in `process_east_file`
after the merge step). -/
structure Row where
  date : Int
  material : String
  line : String
  kgTu : Option ℚ
  qty : ℚ
  speed : Option ℚ
deriving DecidableEq

/-- `Prod Hour` column: `Qty / Speed`, or missing when `Speed` is missing or
zero (the source guards the division). -/
def prodHour (r : Row) : Option ℚ :=
  match r.speed with
  | none => none
  | some s => if s = 0 then none else some (qdiv r.qty s)

/-- `Days` column: `Prod Hour / 24`, missing when `Prod Hour` is missing. -/
def daysOf (r : Row) : Option ℚ := (prodHour r).map (fun x => qdiv x 24)

/-- One scheduled slot: the record together with its assigned
`Time Start` / `Time Finish` instants. -/
structure Slot where
  row : Row
  start : ℚ
  fin : ℚ
deriving DecidableEq

/-! ### Normalization steps relevant to the claims -/

/-- A raw sheet row after the melt step of `process_east_file`, before the
merge with `fg_master_data` (`Kg_TU` comes from sheet column J). -/
structure RawR where
  date : Int
  material : String
  line : String
  kgTu : Option ℚ
  qty : ℚ
deriving DecidableEq

/-- The columns of one `fg_master_data` reference entry used by the merge. -/
structure MasterE where
  kgCb : Option ℚ
  speed : Option ℚ
deriving DecidableEq

/-- Left-merge lookup into the master reference keyed on
`(sku_code, line)`; the reference was de-duplicated keeping the first
occurrence, hence `find?`. -/
def lookupMaster (master : List (String × String × MasterE)) (mat ln : String) :
    Option MasterE :=
  (master.find? (fun e => e.1 == mat && e.2.1 == ln)).map (fun e => e.2.2)

/-- The merge step of `process_east_file` (steps 5-6): `Speed` is whatever
the master reference provides for `(Material, Line)`; `Kg_TU` stays the
sheet's value (the master's `kg_cb` column is carried along but never
applied to `Kg_TU`). -/
def mergeEast (master : List (String × String × MasterE)) (r : RawR) : Row :=
  { date := r.date, material := r.material, line := r.line, kgTu := r.kgTu,
    qty := r.qty,
    speed := (lookupMaster master r.material r.line).bind (fun e => e.speed) }

/-- Scan keeping the first occurrence of each key, remembering keys already
seen. -/
def dropDupSeen {α κ : Type} [DecidableEq κ] (key : α → κ) :
    List κ → List α → List α
  | _, [] => []
  | seen, x :: t =>
      if key x ∈ seen then dropDupSeen key seen t
      else x :: dropDupSeen key (key x :: seen) t

/-- Drop-duplicates keeping the first occurrence of each key
(`DataFrame.drop_duplicates(subset=key_cols, keep="first")`). -/
def dropDupFirst {α κ : Type} [DecidableEq κ] (key : α → κ) (l : List α) :
    List α :=
  dropDupSeen key [] l

/-- The de-duplication key actually used by `process_east_file`
(line 399): `["Date", "Material", "Line", "Kg_TU"]`. -/
def keyE (r : Row) : Int × String × String × Option ℚ :=
  (r.date, r.material, r.line, r.kgTu)

/-- The `drop_duplicates` step of `process_east_file` on normalized rows. -/
def dedupEast (l : List Row) : List Row := dropDupFirst keyE l

/-! ### Per-line ordering pass (continuity heuristic) -/

/-- Material order relation used by `sort_values("Material")`. -/
def matLe (a b : Row) : Prop := strLe a.material b.material = true

instance : DecidableRel matLe := fun a b =>
  inferInstanceAs (Decidable (strLe a.material b.material = true))

instance : IsTotal Row matLe := ⟨fun a b => lexLe_total a.material.data b.material.data⟩

instance : IsTrans Row matLe :=
  ⟨fun a b c => lexLe_trans a.material.data b.material.data c.material.data⟩

/-- Order one date-group: if a previous-day material is known, rows matching
it come first (in their incoming order) and the remaining rows follow sorted
by material; otherwise the whole group is sorted by material.  Mirrors the
`priority_df` / `others_df` split in `process_east_file`. -/
def dayOrder (last : Option String) (grp : List Row) : List Row :=
  match last with
  | some m =>
      grp.filter (fun r => r.material == m) ++
        List.insertionSort matLe (grp.filter (fun r => ! (r.material == m)))
  | none => List.insertionSort matLe grp

/-- Update of `last_material_prev_day`: the material of the group's last
ordered record, or the old value when the group is empty. -/
def nextLast (g : List Row) (last : Option String) : Option String :=
  match g.getLast? with
  | some r => some r.material
  | none => last

/-- The sorted list of distinct dates appearing in a line's rows
(`sorted(line_df["_orig_date"].unique())`). -/
def uniqueDates (l : List Row) : List Int :=
  List.insertionSort (fun a b : Int => a ≤ b)
    (dropDupFirst (fun d : Int => d) (l.map (fun r => r.date)))

/-- Walk the distinct dates in order, emitting each date-group ordered by
the continuity heuristic and threading `last_material_prev_day`. -/
def orderGroups : Option String → List Int → List Row → List Row
  | _, [], _ => []
  | last, d :: ds, l =>
      let g := dayOrder last (l.filter (fun r => r.date == d))
      g ++ orderGroups (nextLast g last) ds l

/-- The whole per-line ordering pass. -/
def orderAll (l : List Row) : List Row := orderGroups none (uniqueDates l) l

/-- The initial `sort_values(["Date", "Line", "Material"])` restricted to one
line (where `Line` is constant). -/
def dateMatLe (a b : Row) : Prop :=
  a.date < b.date ∨ (a.date = b.date ∧ strLe a.material b.material = true)

instance : DecidableRel dateMatLe := fun a b =>
  inferInstanceAs (Decidable (a.date < b.date ∨
    (a.date = b.date ∧ strLe a.material b.material = true)))

/-- A line's rows in the order in which the scheduling loop visits them:
first the global date/material sort, then the per-date continuity pass. -/
def lineInput (rs : List Row) : List Row :=
  orderAll (List.insertionSort dateMatLe rs)

/-! ### The sequential scheduling pass -/

/-- Start time of one record: with no previous finish (the line's first
record) its date at 07:00; otherwise the previous finish when that is after
the record's date at 06:00, else the date at 06:00
(`prev_finish if prev_finish > current_date_6am else current_date_6am`). -/
def schedStart (r : Row) (prev : Option ℚ) : ℚ :=
  match prev with
  | none => qadd (qmul ((r.date : Int) : ℚ) 24) 7
  | some pf =>
      if qadd (qmul ((r.date : Int) : ℚ) 24) 6 < pf then pf
      else qadd (qmul ((r.date : Int) : ℚ) 24) 6

/-- Finish time of one record: its start plus `Days` days (`Days` is taken
as 0 when missing). -/
def schedFin (r : Row) (prev : Option ℚ) : ℚ :=
  qadd (schedStart r prev) (qmul ((daysOf r).getD 0) 24)

/-- The scheduling loop of `process_east_file` (lines 444-457), threading
the previous finish through the list. -/
def sched : List Row → Option ℚ → List Slot
  | [], _ => []
  | r :: t, prev =>
      ⟨r, schedStart r prev, schedFin r prev⟩ :: sched t (some (schedFin r prev))

/-! ### Month-window filter, re-sort and release annotation -/

/-- Month filter of line 463: keep a slot when its finish month is in the
selected month set (month of year only, no year component). -/
def inWindow (w : List Int) (s : Slot) : Bool := decide (monthOf s.fin ∈ w)

/-- Start-time order used by the re-sort `sort_values("Time Start")`. -/
def startLe (a b : Slot) : Prop := a.start ≤ b.start

instance : DecidableRel startLe := fun a b =>
  inferInstanceAs (Decidable (a.start ≤ b.start))

instance : IsTotal Slot startLe := ⟨fun a b => le_total a.start b.start⟩

instance : IsTrans Slot startLe := ⟨fun _ _ _ => le_trans⟩

/-- The weekday of an instant (weekday of the day it falls on). -/
def wdOf (t : ℚ) : Int := wday (dayOfInstant t)

/-- `calc_release_time`: finish plus 5 days; a Saturday result moves 2 more
days, a Sunday result 1 more day. -/
def calcReleaseTime (t : ℚ) : ℚ :=
  if wdOf (qadd t 120) = 5 then qadd (qadd t 120) 48
  else if wdOf (qadd t 120) = 6 then qadd (qadd t 120) 24
  else qadd t 120

/-- `Release Ident`: day, month and year of a date rendered as decimal
integers and concatenated (`f"{x.day}{x.month}{x.year}"`). -/
def relIdentOfDay (d : Int) : String :=
  toString (civilFromDays d).2.2 ++ toString (civilFromDays d).2.1 ++
    toString (civilFromDays d).1

/-- One released output row: the slot, the release date (the `.dt.date` of
`calc_release_time(Time Finish)`, as a day number) and the release
identifier. -/
structure OutRow where
  slot : Slot
  releaseDay : Int
  releaseIdent : String
deriving DecidableEq

/-- Attach release metadata to a surviving slot. -/
def annotate (s : Slot) : OutRow :=
  { slot := s,
    releaseDay := dayOfInstant (calcReleaseTime s.fin),
    releaseIdent := relIdentOfDay (dayOfInstant (calcReleaseTime s.fin)) }

/-- Filter a timeline to the month window, re-sort by start time and attach
release metadata (lines 462-519). -/
def outputOfTimeline (w : List Int) (tl : List Slot) : List OutRow :=
  (List.insertionSort startLe (tl.filter (inWindow w))).map annotate

/-- The full per-line schedule of `process_east_file`. -/
def eastTimeline (rs : List Row) : List Slot := sched (lineInput rs) none

/-- The full per-line output of `process_east_file`. -/
def eastOutput (w : List Int) (rs : List Row) : List OutRow :=
  outputOfTimeline w (eastTimeline rs)

/-- The month window derived in `render_east` from the base month `m0`. -/
def monthSet (m0 : Int) : List Int :=
  [m0, (m0 - 1 + 1) % 12 + 1, (m0 - 1 + 2) % 12 + 1]

/-! ### Structural lemmas about the scheduling pass -/

theorem ite_lt_max (pf b : ℚ) : (if b < pf then pf else b) = max pf b := by
  rcases le_or_lt pf b with h1 | h1
  · rw [if_neg (not_lt.mpr h1), max_eq_right h1]
  · rw [if_pos h1, max_eq_left h1.le]

theorem schedStart_some (r : Row) (pf : ℚ) :
    schedStart r (some pf) = max pf (qadd (qmul ((r.date : Int) : ℚ) 24) 6) := by
  rw [schedStart]
  exact ite_lt_max pf _

theorem sched_length (rs : List Row) (prev : Option ℚ) :
    (sched rs prev).length = rs.length := by
  induction rs generalizing prev with
  | nil => rfl
  | cons r t ih => simp [sched, ih]

theorem sched_row (rs : List Row) (prev : Option ℚ) (i : Nat)
    (h1 : i < (sched rs prev).length) (h2 : i < rs.length) :
    ((sched rs prev).get ⟨i, h1⟩).row = rs.get ⟨i, h2⟩ := by
  induction rs generalizing prev i with
  | nil => simp at h2
  | cons r t ih =>
    cases i with
    | zero => rfl
    | succ j =>
      simp only [sched, List.get_cons_succ]
      exact ih (some (schedFin r prev)) j _ _

theorem sched_fin (rs : List Row) (prev : Option ℚ) :
    ∀ s ∈ sched rs prev, s.fin = qadd s.start (qmul ((daysOf s.row).getD 0) 24) := by
  induction rs generalizing prev with
  | nil => intro s hs; simp [sched] at hs
  | cons r t ih =>
    intro s hs
    simp only [sched, List.mem_cons] at hs
    rcases hs with rfl | hs
    · rfl
    · exact ih _ s hs

theorem sched_get_zero_start (rs : List Row) (prev : Option ℚ)
    (h1 : 0 < (sched rs prev).length) (h2 : 0 < rs.length) :
    ((sched rs prev).get ⟨0, h1⟩).start = schedStart (rs.get ⟨0, h2⟩) prev := by
  cases rs with
  | nil => simp at h2
  | cons r t => rfl

theorem sched_get_succ_start (rs : List Row) (prev : Option ℚ) (i : Nat)
    (h1 : i + 1 < (sched rs prev).length) (h0 : i < (sched rs prev).length)
    (hd : i + 1 < rs.length) :
    ((sched rs prev).get ⟨i + 1, h1⟩).start =
      max (((sched rs prev).get ⟨i, h0⟩).fin)
        (qadd (qmul (((rs.get ⟨i + 1, hd⟩).date : Int) : ℚ) 24) 6) := by
  induction rs generalizing prev i with
  | nil => simp at hd
  | cons r t ih =>
    cases i with
    | zero =>
      cases t with
      | nil => simp [sched] at h1
      | cons r2 t2 =>
        simp only [sched, List.get_cons_succ, List.get_cons_zero]
        exact schedStart_some r2 (schedFin r prev)
    | succ j =>
      simp only [sched, List.get_cons_succ]
      exact ih (some (schedFin r prev)) j _ _ _

theorem sched_head_start_ge (rs : List Row) (pf : ℚ) (s : Slot)
    (h : (sched rs (some pf)).head? = some s) : pf ≤ s.start := by
  cases rs with
  | nil => simp [sched] at h
  | cons r t =>
    simp only [sched, List.head?_cons, Option.some.injEq] at h
    rw [← h]
    show pf ≤ schedStart r (some pf)
    rw [schedStart_some]
    exact le_max_left _ _

theorem sched_chain (rs : List Row) (prev : Option ℚ) :
    List.Chain' (fun a b : Slot => a.fin ≤ b.start) (sched rs prev) := by
  induction rs generalizing prev with
  | nil => simp [sched]
  | cons r t ih =>
    simp only [sched]
    rw [List.chain'_cons']
    refine ⟨?_, ih _⟩
    intro s hs
    exact sched_head_start_ge t (schedFin r prev) s (Option.mem_def.mp hs)

theorem sched_mem_row (rs : List Row) (prev : Option ℚ) :
    ∀ s ∈ sched rs prev, s.row ∈ rs := by
  induction rs generalizing prev with
  | nil => intro s hs; simp [sched] at hs
  | cons r t ih =>
    intro s hs
    simp only [sched, List.mem_cons] at hs
    rcases hs with rfl | hs
    · exact List.mem_cons_self _ _
    · exact List.mem_cons_of_mem _ (ih _ s hs)

theorem sched_mem_of_mem (rs : List Row) (prev : Option ℚ) (r : Row)
    (h : r ∈ rs) : ∃ s ∈ sched rs prev, s.row = r := by
  induction rs generalizing prev with
  | nil => simp at h
  | cons a t ih =>
    rcases List.mem_cons.mp h with rfl | h
    · exact ⟨⟨r, schedStart r prev, schedFin r prev⟩, List.mem_cons_self _ _, rfl⟩
    · obtain ⟨s, hs, hr⟩ := ih (some (schedFin a prev)) h
      exact ⟨s, List.mem_cons_of_mem _ hs, hr⟩

theorem pairwise_of_chain (tl : List Slot)
    (hsf : ∀ s ∈ tl, s.start ≤ s.fin)
    (hc : List.Chain' (fun a b : Slot => a.fin ≤ b.start) tl) :
    List.Pairwise (fun a b : Slot => a.fin ≤ b.start) tl := by
  induction tl with
  | nil => exact List.Pairwise.nil
  | cons a l ih =>
    have hl : List.Pairwise (fun a b : Slot => a.fin ≤ b.start) l :=
      ih (fun s hs => hsf s (List.mem_cons_of_mem _ hs)) hc.tail
    refine List.pairwise_cons.mpr ⟨?_, hl⟩
    intro b hb
    cases l with
    | nil => simp at hb
    | cons c m =>
      have hac : a.fin ≤ c.start := List.chain'_cons.mp hc |>.1
      rcases List.mem_cons.mp hb with rfl | hb
      · exact hac
      · have hcb : c.fin ≤ b.start := List.rel_of_pairwise_cons hl hb
        have hcc : c.start ≤ c.fin := hsf c (by simp)
        linarith

/-! ### Lemmas about the per-line ordering pass -/

theorem dayOrder_perm (last : Option String) (grp : List Row) :
    (dayOrder last grp).Perm grp := by
  cases last with
  | none => exact List.perm_insertionSort matLe grp
  | some m =>
    have h1 : (List.insertionSort matLe
        (grp.filter (fun r => ! (r.material == m)))).Perm
        (grp.filter (fun r => ! (r.material == m))) :=
      List.perm_insertionSort _ _
    have h2 : (dayOrder (some m) grp).Perm
        (grp.filter (fun r => r.material == m) ++
          grp.filter (fun r => ! (r.material == m))) :=
      List.Perm.append_left _ h1
    exact h2.trans (List.filter_append_perm _ grp)

theorem mem_dayOrder_of_mem (last : Option String) (grp : List Row) (r : Row)
    (h : r ∈ grp) : r ∈ dayOrder last grp := by
  cases last with
  | none => simpa [dayOrder] using h
  | some m =>
    rw [dayOrder, List.mem_append]
    by_cases hm : r.material = m
    · exact Or.inl (List.mem_filter.mpr ⟨h, by simp [hm]⟩)
    · refine Or.inr ?_
      rw [List.mem_insertionSort]
      exact List.mem_filter.mpr ⟨h, by simp [hm]⟩

theorem orderGroups_subset (last : Option String) (ds : List Int) (l : List Row) :
    ∀ r ∈ orderGroups last ds l, r ∈ l := by
  induction ds generalizing last with
  | nil => intro r hr; simp [orderGroups] at hr
  | cons d ds ih =>
    intro r hr
    simp only [orderGroups, List.mem_append] at hr
    rcases hr with hr | hr
    · exact List.mem_of_mem_filter ((dayOrder_perm last _).mem_iff.mp hr)
    · exact ih _ r hr

theorem mem_orderGroups (ds : List Int) :
    ∀ (last : Option String) (l : List Row) (r : Row),
      r ∈ l → r.date ∈ ds → r ∈ orderGroups last ds l := by
  induction ds with
  | nil => intro last l r _ hd; simp at hd
  | cons d ds ih =>
    intro last l r hl hd
    simp only [orderGroups, List.mem_append]
    by_cases hdate : r.date = d
    · exact Or.inl (mem_dayOrder_of_mem _ _ _ (List.mem_filter.mpr ⟨hl, by simp [hdate]⟩))
    · refine Or.inr (ih _ l r hl ?_)
      rcases List.mem_cons.mp hd with h | h
      · exact absurd h hdate
      · exact h

/-! ### Lemmas about first-occurrence de-duplication -/

theorem dropDupSeen_sublist {α κ : Type} [DecidableEq κ] (key : α → κ)
    (seen : List κ) (l : List α) :
    List.Sublist (dropDupSeen key seen l) l := by
  induction l generalizing seen with
  | nil => simp [dropDupSeen]
  | cons x t ih =>
    by_cases hx : key x ∈ seen
    · rw [dropDupSeen, if_pos hx]
      exact List.Sublist.cons x (ih seen)
    · rw [dropDupSeen, if_neg hx]
      exact List.Sublist.cons₂ x (ih (key x :: seen))

theorem dropDupSeen_key_not_seen {α κ : Type} [DecidableEq κ] (key : α → κ)
    (seen : List κ) (l : List α) (y : α)
    (hy : y ∈ dropDupSeen key seen l) : key y ∉ seen := by
  induction l generalizing seen with
  | nil => simp [dropDupSeen] at hy
  | cons x t ih =>
    by_cases hx : key x ∈ seen
    · rw [dropDupSeen, if_pos hx] at hy
      exact ih seen hy
    · rw [dropDupSeen, if_neg hx] at hy
      rcases List.mem_cons.mp hy with rfl | hy
      · exact hx
      · have h2 := ih (key x :: seen) hy
        intro hc
        exact h2 (List.mem_cons_of_mem _ hc)

theorem dropDupSeen_pairwise {α κ : Type} [DecidableEq κ] (key : α → κ)
    (seen : List κ) (l : List α) :
    (dropDupSeen key seen l).Pairwise (fun a b => key a ≠ key b) := by
  induction l generalizing seen with
  | nil => simp [dropDupSeen]
  | cons x t ih =>
    by_cases hx : key x ∈ seen
    · rw [dropDupSeen, if_pos hx]
      exact ih seen
    · rw [dropDupSeen, if_neg hx]
      refine List.pairwise_cons.mpr ⟨?_, ih _⟩
      intro z hz he
      have h2 := dropDupSeen_key_not_seen key (key x :: seen) t z hz
      refine h2 ?_
      rw [← he]
      exact List.mem_cons_self _ _

theorem dropDupSeen_find? {α κ : Type} [DecidableEq κ] (key : α → κ)
    (seen : List κ) (l : List α) (y : α) (k : κ) (hk : k ∉ seen)
    (hf : l.find? (fun z => decide (key z = k)) = some y) :
    y ∈ dropDupSeen key seen l := by
  induction l generalizing seen with
  | nil => simp at hf
  | cons a t ih =>
    by_cases ha : key a = k
    · have hp : (decide (key a = k)) = true := decide_eq_true ha
      simp only [List.find?_cons, hp] at hf
      have hy : y = a := (Option.some.inj hf).symm
      subst hy
      rw [dropDupSeen, if_neg (by rw [ha]; exact hk)]
      exact List.mem_cons_self _ _
    · have hp : (decide (key a = k)) = false := decide_eq_false ha
      simp only [List.find?_cons, hp] at hf
      by_cases hs : key a ∈ seen
      · rw [dropDupSeen, if_pos hs]
        exact ih seen hk hf
      · rw [dropDupSeen, if_neg hs]
        refine List.mem_cons_of_mem _ (ih (key a :: seen) ?_ hf)
        intro hc
        rcases List.mem_cons.mp hc with he | he
        · exact ha he.symm
        · exact hk he

theorem dropDupFirst_sublist {α κ : Type} [DecidableEq κ] (key : α → κ)
    (l : List α) : List.Sublist (dropDupFirst key l) l :=
  dropDupSeen_sublist key [] l

theorem dropDupFirst_pairwise {α κ : Type} [DecidableEq κ] (key : α → κ)
    (l : List α) :
    (dropDupFirst key l).Pairwise (fun a b => key a ≠ key b) :=
  dropDupSeen_pairwise key [] l

theorem dropDupFirst_find? {α κ : Type} [DecidableEq κ] (key : α → κ)
    (l : List α) (y : α) (k : κ)
    (hf : l.find? (fun z => decide (key z = k)) = some y) :
    y ∈ dropDupFirst key l :=
  dropDupSeen_find? key [] l y k (by simp) hf

theorem dropDupFirst_cover {α κ : Type} [DecidableEq κ] (key : α → κ)
    (l : List α) (x : α) (hx : x ∈ l) :
    ∃ y ∈ dropDupFirst key l, key y = key x := by
  have hsome : (l.find? (fun z => decide (key z = key x))).isSome := by
    rw [List.find?_isSome]
    exact ⟨x, hx, by simp⟩
  obtain ⟨y, hy⟩ := Option.isSome_iff_exists.mp hsome
  have hkey := List.find?_some hy
  exact ⟨y, dropDupFirst_find? key l y (key x) hy, of_decide_eq_true hkey⟩


/-! ### Lemmas about the full per-line pipeline -/

theorem mem_uniqueDates (l : List Row) (r : Row) (h : r ∈ l) :
    r.date ∈ uniqueDates l := by
  unfold uniqueDates
  rw [List.mem_insertionSort]
  have hmap : r.date ∈ l.map (fun r => r.date) := List.mem_map_of_mem _ h
  obtain ⟨y, hy, hk⟩ := dropDupFirst_cover (fun d : Int => d) _ _ hmap
  exact hk ▸ hy

theorem uniqueDates_sorted (l : List Row) :
    List.Sorted (fun a b : Int => a ≤ b) (uniqueDates l) :=
  List.sorted_insertionSort _ _

theorem lineInput_subset (rs : List Row) : ∀ r ∈ lineInput rs, r ∈ rs := by
  intro r hr
  unfold lineInput orderAll at hr
  have h1 := orderGroups_subset none _ _ r hr
  exact (List.mem_insertionSort _).mp h1

theorem mem_lineInput (rs : List Row) (r : Row) (h : r ∈ rs) :
    r ∈ lineInput rs := by
  unfold lineInput orderAll
  have hl : r ∈ List.insertionSort dateMatLe rs := (List.mem_insertionSort _).mpr h
  exact mem_orderGroups _ none _ r hl (mem_uniqueDates _ r hl)

theorem eastTimeline_row_mem (rs : List Row) :
    ∀ s ∈ eastTimeline rs, s.row ∈ rs :=
  fun s hs => lineInput_subset rs _ (sched_mem_row _ _ s hs)

theorem eastTimeline_start_le_fin (rs : List Row)
    (hnn : ∀ r ∈ rs, 0 ≤ (daysOf r).getD 0) :
    ∀ s ∈ eastTimeline rs, s.start ≤ s.fin := by
  intro s hs
  rw [sched_fin _ _ s hs, qadd_eq, qmul_eq]
  have h0 : 0 ≤ ((daysOf s.row).getD 0) := hnn _ (eastTimeline_row_mem rs s hs)
  have h24 : 0 ≤ ((daysOf s.row).getD 0) * 24 :=
    mul_nonneg h0 (by norm_num)
  linarith

theorem eastTimeline_pairwise (rs : List Row)
    (hnn : ∀ r ∈ rs, 0 ≤ (daysOf r).getD 0) :
    List.Pairwise (fun a b : Slot => a.fin ≤ b.start) (eastTimeline rs) :=
  pairwise_of_chain _ (eastTimeline_start_le_fin rs hnn) (sched_chain _ _)

theorem eastTimeline_sorted (rs : List Row)
    (hnn : ∀ r ∈ rs, 0 ≤ (daysOf r).getD 0) :
    List.Sorted startLe (eastTimeline rs) := by
  refine (eastTimeline_pairwise rs hnn).imp_of_mem ?_
  intro a b ha hb hab
  have h1 : a.start ≤ a.fin := eastTimeline_start_le_fin rs hnn a ha
  exact le_trans h1 hab

theorem mem_eastOutput (w : List Int) (rs : List Row) (o : OutRow)
    (h : o ∈ eastOutput w rs) :
    ∃ s, s ∈ eastTimeline rs ∧ inWindow w s = true ∧ o = annotate s := by
  unfold eastOutput outputOfTimeline at h
  rw [List.mem_map] at h
  obtain ⟨s, hs, rfl⟩ := h
  rw [List.mem_insertionSort] at hs
  have h2 := List.mem_filter.mp hs
  exact ⟨s, h2.1, h2.2, rfl⟩

theorem annotate_mem_eastOutput (w : List Int) (rs : List Row) (s : Slot)
    (hs : s ∈ eastTimeline rs) (hw : monthOf s.fin ∈ w) :
    annotate s ∈ eastOutput w rs := by
  unfold eastOutput outputOfTimeline
  apply List.mem_map_of_mem
  rw [List.mem_insertionSort]
  exact List.mem_filter.mpr ⟨hs, by simpa [inWindow] using hw⟩

theorem eastOutput_eq_of_sorted (w : List Int) (rs : List Row)
    (hs : List.Sorted startLe ((eastTimeline rs).filter (inWindow w))) :
    eastOutput w rs = ((eastTimeline rs).filter (inWindow w)).map annotate := by
  unfold eastOutput outputOfTimeline
  rw [List.Sorted.insertionSort_eq hs]

/-! ### Claim theorems -/

/-- C1: for every line, the scheduler assigns the very first processed
record a start equal to its date at 07:00 (hour `date * 24 + 7`), assigns
every subsequent record a start of `max(previous finish, own date at
06:00)`, and each finish is the start plus the record's duration in days
(`Days * 24` hours, `Days` taken as 0 when missing). -/
theorem east_sched_start_finish_rule (rs : List Row) :
    (sched rs none).length = rs.length ∧
    (∀ (h1 : 0 < (sched rs none).length) (h2 : 0 < rs.length),
      ((sched rs none).get ⟨0, h1⟩).start =
        qadd (qmul (((rs.get ⟨0, h2⟩).date : Int) : ℚ) 24) 7) ∧
    (∀ (i : Nat) (h1 : i + 1 < (sched rs none).length)
        (h0 : i < (sched rs none).length) (h2 : i + 1 < rs.length),
      ((sched rs none).get ⟨i + 1, h1⟩).start =
        max (((sched rs none).get ⟨i, h0⟩).fin)
          (qadd (qmul (((rs.get ⟨i + 1, h2⟩).date : Int) : ℚ) 24) 6)) ∧
    (∀ s ∈ sched rs none,
      s.fin = qadd s.start (qmul ((daysOf s.row).getD 0) 24)) := by
  refine ⟨sched_length rs none, ?_, ?_, sched_fin rs none⟩
  · intro h1 h2
    rw [sched_get_zero_start rs none h1 h2]
    rfl
  · intro i h1 h0 h2
    exact sched_get_succ_start rs none i h1 h0 h2

/-- Record of the worked example: material `X1`, 240 cartons at speed 10
(one day of production), dated 2026-01-10 (day 20463). -/
def rowC1a : Row := ⟨20463, "X1", "AB", none, 240, some 10⟩

/-- Record of the worked example: material `X2`, 120 cartons at speed 10
(half a day), dated 2026-01-10. -/
def rowC1b : Row := ⟨20463, "X2", "AB", none, 120, some 10⟩

theorem east_sched_start_finish_rule_witness :
    (sched [rowC1a, rowC1b] none).length = 2 ∧
    ((sched [rowC1a, rowC1b] none).get ⟨0, by decide⟩).start =
      qadd (qmul ((rowC1a.date : Int) : ℚ) 24) 7 ∧
    ((sched [rowC1a, rowC1b] none).get ⟨1, by decide⟩).start =
      max (((sched [rowC1a, rowC1b] none).get ⟨0, by decide⟩).fin)
        (qadd (qmul ((rowC1b.date : Int) : ℚ) 24) 6) := by
  refine ⟨(east_sched_start_finish_rule [rowC1a, rowC1b]).1, ?_, ?_⟩
  · exact (east_sched_start_finish_rule [rowC1a, rowC1b]).2.1 (by decide) (by decide)
  · exact (east_sched_start_finish_rule [rowC1a, rowC1b]).2.2.1 0
      (by decide) (by decide) (by decide)

/-- C4: the release time is the finish plus 5 calendar days, shifted 2 more
days when that lands on a Saturday and 1 more day when it lands on a
Sunday; consequently the weekday of the release time (and of each output
row's release date) is never Saturday (5) or Sunday (6). -/
theorem release_time_weekend_shift :
    (∀ t : ℚ,
      (wdOf (qadd t 120) = 5 → calcReleaseTime t = qadd (qadd t 120) 48) ∧
      (wdOf (qadd t 120) = 6 → calcReleaseTime t = qadd (qadd t 120) 24) ∧
      (wdOf (qadd t 120) ≠ 5 → wdOf (qadd t 120) ≠ 6 →
        calcReleaseTime t = qadd t 120) ∧
      wdOf (calcReleaseTime t) ≠ 5 ∧ wdOf (calcReleaseTime t) ≠ 6) ∧
    (∀ (w : List Int) (rs : List Row) (o : OutRow), o ∈ eastOutput w rs →
      o.releaseDay = dayOfInstant (calcReleaseTime o.slot.fin) ∧
      wday o.releaseDay ≠ 5 ∧ wday o.releaseDay ≠ 6) := by
  have key : ∀ t : ℚ,
      (wdOf (qadd t 120) = 5 → calcReleaseTime t = qadd (qadd t 120) 48) ∧
      (wdOf (qadd t 120) = 6 → calcReleaseTime t = qadd (qadd t 120) 24) ∧
      (wdOf (qadd t 120) ≠ 5 → wdOf (qadd t 120) ≠ 6 →
        calcReleaseTime t = qadd t 120) ∧
      wdOf (calcReleaseTime t) ≠ 5 ∧ wdOf (calcReleaseTime t) ≠ 6 := by
    intro t
    have h120 : dayOfInstant (qadd t 120) = dayOfInstant t + 5 :=
      dayOfInstant_add t 120 5 (by norm_num)
    have h48 : dayOfInstant (qadd (qadd t 120) 48) = dayOfInstant t + 7 := by
      rw [dayOfInstant_add _ 48 2 (by norm_num), h120]; ring
    have h24 : dayOfInstant (qadd (qadd t 120) 24) = dayOfInstant t + 6 := by
      rw [dayOfInstant_add _ 24 1 (by norm_num), h120]; ring
    by_cases h5 : wdOf (qadd t 120) = 5
    · have hc : calcReleaseTime t = qadd (qadd t 120) 48 := by
        rw [calcReleaseTime, if_pos h5]
      refine ⟨fun _ => hc, fun h6 => absurd h5 (by rw [h6]; decide), fun hn _ => absurd h5 hn, ?_, ?_⟩
      · rw [hc]
        unfold wdOf wday at h5 ⊢
        rw [h48]
        rw [h120] at h5
        omega
      · rw [hc]
        unfold wdOf wday at h5 ⊢
        rw [h48]
        rw [h120] at h5
        omega
    · by_cases h6 : wdOf (qadd t 120) = 6
      · have hc : calcReleaseTime t = qadd (qadd t 120) 24 := by
          rw [calcReleaseTime, if_neg h5, if_pos h6]
        refine ⟨fun h => absurd h h5, fun _ => hc, fun _ hn => absurd h6 hn, ?_, ?_⟩
        · rw [hc]
          unfold wdOf wday at h6 ⊢
          rw [h24]
          rw [h120] at h6
          omega
        · rw [hc]
          unfold wdOf wday at h6 ⊢
          rw [h24]
          rw [h120] at h6
          omega
      · have hc : calcReleaseTime t = qadd t 120 := by
          rw [calcReleaseTime, if_neg h5, if_neg h6]
        exact ⟨fun h => absurd h h5, fun h => absurd h h6, fun _ _ => hc,
          hc ▸ h5, hc ▸ h6⟩
  refine ⟨key, ?_⟩
  intro w rs o ho
  obtain ⟨s, _, _, rfl⟩ := mem_eastOutput w rs o ho
  exact ⟨rfl, (key s.fin).2.2.2.1, (key s.fin).2.2.2.2⟩

theorem release_time_weekend_shift_witness :
    calcReleaseTime 96 = qadd (qadd 96 120) 48 ∧
    calcReleaseTime 120 = qadd (qadd 120 120) 24 ∧
    calcReleaseTime 0 = qadd 0 120 ∧
    wdOf (calcReleaseTime 96) ≠ 5 ∧ wdOf (calcReleaseTime 96) ≠ 6 :=
  ⟨(release_time_weekend_shift.1 96).1 (by decide),
    (release_time_weekend_shift.1 120).2.1 (by decide),
    (release_time_weekend_shift.1 0).2.2.1 (by decide) (by decide),
    (release_time_weekend_shift.1 96).2.2.2.1,
    (release_time_weekend_shift.1 96).2.2.2.2⟩

/-- Two slots overlap when some instant lies in both half-open
`[start, fin)` intervals. -/
def slotOverlap (a b : Slot) : Prop :=
  ∃ t : ℚ, a.start ≤ t ∧ t < a.fin ∧ b.start ≤ t ∧ t < b.fin

/-- C2: in the emitted slot list of a line every slot starts no earlier
than the previous slot's finish, no two distinct slots' half-open
`[start, fin)` intervals overlap, and the list is sorted by start time
ascending.  Durations are non-negative (positive quantities at
non-negative speeds). -/
theorem east_output_nonoverlap_sorted (w : List Int) (rs : List Row)
    (hnn : ∀ r ∈ rs, 0 ≤ (daysOf r).getD 0) :
    List.Chain' (fun a b : Slot => a.fin ≤ b.start)
      ((eastOutput w rs).map (fun o => o.slot)) ∧
    List.Pairwise (fun a b : Slot => ¬ slotOverlap a b)
      ((eastOutput w rs).map (fun o => o.slot)) ∧
    List.Sorted startLe ((eastOutput w rs).map (fun o => o.slot)) := by
  have hpw := eastTimeline_pairwise rs hnn
  have hsorted := eastTimeline_sorted rs hnn
  have hfsub : List.Sublist ((eastTimeline rs).filter (inWindow w))
      (eastTimeline rs) := List.filter_sublist _
  have hpwF : List.Pairwise (fun a b : Slot => a.fin ≤ b.start)
      ((eastTimeline rs).filter (inWindow w)) :=
    List.Pairwise.sublist hfsub hpw
  have hsortedF : List.Sorted startLe ((eastTimeline rs).filter (inWindow w)) :=
    List.Pairwise.sublist hfsub hsorted
  have hslots : (eastOutput w rs).map (fun o => o.slot) =
      (eastTimeline rs).filter (inWindow w) := by
    rw [eastOutput_eq_of_sorted w rs hsortedF, List.map_map]
    exact List.map_id _
  rw [hslots]
  refine ⟨List.Pairwise.chain' hpwF, hpwF.imp ?_, hsortedF⟩
  intro a b hab hov
  obtain ⟨t, _, h2, h3, _⟩ := hov
  exact lt_irrefl t (lt_of_lt_of_le h2 (hab.trans h3))

/-- Concrete record for the C2 witness (one day of production). -/
def rowC2a : Row := ⟨20463, "X1", "AB", none, 240, some 10⟩

/-- Concrete record for the C2 witness (half a day of production). -/
def rowC2b : Row := ⟨20463, "X2", "AB", none, 120, some 10⟩

theorem east_output_nonoverlap_sorted_witness :
    List.Chain' (fun a b : Slot => a.fin ≤ b.start)
      ((eastOutput [1, 2, 3] [rowC2a, rowC2b]).map (fun o => o.slot)) ∧
    List.Pairwise (fun a b : Slot => ¬ slotOverlap a b)
      ((eastOutput [1, 2, 3] [rowC2a, rowC2b]).map (fun o => o.slot)) ∧
    List.Sorted startLe
      ((eastOutput [1, 2, 3] [rowC2a, rowC2b]).map (fun o => o.slot)) :=
  east_output_nonoverlap_sorted [1, 2, 3] [rowC2a, rowC2b] (by decide)

/-- C10: assuming non-negative durations, the timeline produced by the
scheduling pass is already sorted by start time before the month filter,
so re-sorting the filtered timeline by start time is the identity. -/
theorem timeline_presorted_resort_noop (w : List Int) (rs : List Row)
    (hnn : ∀ r ∈ rs, 0 ≤ (daysOf r).getD 0) :
    List.Sorted startLe (eastTimeline rs) ∧
    List.insertionSort startLe ((eastTimeline rs).filter (inWindow w)) =
      (eastTimeline rs).filter (inWindow w) :=
  ⟨eastTimeline_sorted rs hnn,
    List.Sorted.insertionSort_eq
      (List.Pairwise.sublist (List.filter_sublist _) (eastTimeline_sorted rs hnn))⟩

/-- Concrete record for the C10 witness. -/
def rowC10a : Row := ⟨20463, "X1", "AB", none, 240, some 10⟩

/-- Concrete record for the C10 witness. -/
def rowC10b : Row := ⟨20464, "X2", "AB", none, 120, some 10⟩

theorem timeline_presorted_resort_noop_witness :
    List.Sorted startLe (eastTimeline [rowC10a, rowC10b]) ∧
    List.insertionSort startLe
        ((eastTimeline [rowC10a, rowC10b]).filter (inWindow [1, 2, 3])) =
      (eastTimeline [rowC10a, rowC10b]).filter (inWindow [1, 2, 3]) :=
  timeline_presorted_resort_noop [1, 2, 3] [rowC10a, rowC10b] (by decide)

/-- C3: each date-group (visited in ascending date order) is emitted as a
permutation of itself in which, when a previous-day material is defined,
every record of that exact material precedes every other record and the
remaining records are sorted by ascending material code; with no
previous-day material (or no matching record) the whole group is sorted by
material; and the threaded `last_material_prev_day` becomes the material of
the group's last ordered record. -/
theorem east_dayorder_continuity :
    (∀ (last : Option String) (grp : List Row), (dayOrder last grp).Perm grp) ∧
    (∀ grp : List Row, List.Sorted matLe (dayOrder none grp)) ∧
    (∀ (m : String) (grp : List Row),
      List.Pairwise (fun a b : Row => b.material = m → a.material = m)
        (dayOrder (some m) grp)) ∧
    (∀ (m : String) (grp : List Row),
      List.Sorted matLe
        ((dayOrder (some m) grp).filter (fun r => ! (r.material == m)))) ∧
    (∀ (m : String) (grp : List Row), (∀ r ∈ grp, r.material ≠ m) →
      List.Sorted matLe (dayOrder (some m) grp)) ∧
    (∀ (g : List Row) (last : Option String) (r0 : Row),
      g.getLast? = some r0 → nextLast g last = some r0.material) ∧
    (∀ l : List Row, List.Sorted (fun a b : Int => a ≤ b) (uniqueDates l)) ∧
    (∀ (last : Option String) (d : Int) (ds : List Int) (l : List Row),
      orderGroups last (d :: ds) l =
        dayOrder last (l.filter (fun r => r.date == d)) ++
          orderGroups
            (nextLast (dayOrder last (l.filter (fun r => r.date == d))) last)
            ds l) := by
  refine ⟨dayOrder_perm, ?_, ?_, ?_, ?_, ?_, uniqueDates_sorted, ?_⟩
  · intro grp
    exact List.sorted_insertionSort matLe grp
  · intro m grp
    rw [dayOrder]
    rw [List.pairwise_append]
    refine ⟨?_, ?_, ?_⟩
    · refine List.pairwise_of_forall_mem_list ?_
      intro a ha b _
      have hma : a.material = m := by
        have := (List.mem_filter.mp ha).2
        simpa using this
      exact fun _ => hma
    · refine List.pairwise_of_forall_mem_list ?_
      intro a _ b hb
      rw [List.mem_insertionSort] at hb
      have hmb : ¬ b.material = m := by
        have := (List.mem_filter.mp hb).2
        simpa using this
      exact fun hb2 => absurd hb2 hmb
    · intro a ha b _
      have hma : a.material = m := by
        have := (List.mem_filter.mp ha).2
        simpa using this
      exact fun _ => hma
  · intro m grp
    rw [dayOrder, List.filter_append]
    have hA : (grp.filter (fun r => r.material == m)).filter
        (fun r => ! (r.material == m)) = [] := by
      rw [List.filter_eq_nil_iff]
      intro a ha
      have := (List.mem_filter.mp ha).2
      simp_all
    have hS : (List.insertionSort matLe
        (grp.filter (fun r => ! (r.material == m)))).filter
        (fun r => ! (r.material == m)) =
        List.insertionSort matLe (grp.filter (fun r => ! (r.material == m))) := by
      rw [List.filter_eq_self]
      intro a ha
      rw [List.mem_insertionSort] at ha
      exact (List.mem_filter.mp ha).2
    rw [hA, hS, List.nil_append]
    exact List.sorted_insertionSort matLe _
  · intro m grp hne
    rw [dayOrder]
    have hA : grp.filter (fun r => r.material == m) = [] := by
      rw [List.filter_eq_nil_iff]
      intro a ha
      simpa using hne a ha
    have hS : grp.filter (fun r => ! (r.material == m)) = grp := by
      rw [List.filter_eq_self]
      intro a ha
      simpa using hne a ha
    rw [hA, hS, List.nil_append]
    exact List.sorted_insertionSort matLe grp
  · intro g last r0 h
    simp [nextLast, h]
  · intro last d ds l
    rfl

/-- Concrete record for the C3 witness, material `X1`. -/
def rowC3a : Row := ⟨20463, "X1", "AB", none, 10, none⟩

/-- Concrete record for the C3 witness, material `X2`. -/
def rowC3b : Row := ⟨20463, "X2", "AB", none, 20, none⟩

theorem east_dayorder_continuity_witness :
    List.Sorted matLe (dayOrder none [rowC3b, rowC3a]) ∧
    List.Pairwise (fun a b : Row => b.material = "X2" → a.material = "X2")
      (dayOrder (some "X2") [rowC3a, rowC3b]) ∧
    List.Sorted matLe (dayOrder (some "Z9") [rowC3b, rowC3a]) ∧
    nextLast (dayOrder none [rowC3b, rowC3a]) none = some rowC3b.material :=
  ⟨east_dayorder_continuity.2.1 [rowC3b, rowC3a],
    east_dayorder_continuity.2.2.1 "X2" [rowC3a, rowC3b],
    east_dayorder_continuity.2.2.2.2.1 "Z9" [rowC3b, rowC3a] (by decide),
    east_dayorder_continuity.2.2.2.2.2.1 (dayOrder none [rowC3b, rowC3a]) none
      rowC3b (by decide)⟩

/-- Record with `Kg_TU = 1`; shares `(date, material, line)` with
`rowC5b`. -/
def rowC5a : Row := ⟨20454, "MAT1", "AB", some 1, 10, none⟩

/-- Record with `Kg_TU = 2`; shares `(date, material, line)` with
`rowC5a`. -/
def rowC5b : Row := ⟨20454, "MAT1", "AB", some 2, 10, none⟩

/-- C5 counterexample: the de-duplication key of `process_east_file` is
`(Date, Material, Line, Kg_TU)`, so two records sharing `(date, material,
line)` but differing in `Kg_TU` both survive and both reach the
scheduler. -/
theorem dedup_key_counterexample :
    rowC5a.date = rowC5b.date ∧ rowC5a.material = rowC5b.material ∧
    rowC5a.line = rowC5b.line ∧ ¬ rowC5a = rowC5b ∧
    dedupEast [rowC5a, rowC5b] = [rowC5a, rowC5b] := by decide

/-- C5 amended: de-duplication collapses records to one per `(date,
material, line, Kg_TU)` key, keeping the first occurrence: the output has
pairwise-distinct keys, is a subsequence of the input, and contains the
first occurrence of every input key. -/
theorem dedup_key_amended (l : List Row) :
    List.Pairwise (fun a b : Row => keyE a ≠ keyE b) (dedupEast l) ∧
    List.Sublist (dedupEast l) l ∧
    (∀ x ∈ l, ∃ y, l.find? (fun z => decide (keyE z = keyE x)) = some y ∧
      y ∈ dedupEast l) := by
  refine ⟨dropDupFirst_pairwise keyE l, dropDupFirst_sublist keyE l, ?_⟩
  intro x hx
  have hsome : (l.find? (fun z => decide (keyE z = keyE x))).isSome := by
    rw [List.find?_isSome]
    exact ⟨x, hx, by simp⟩
  obtain ⟨y, hy⟩ := Option.isSome_iff_exists.mp hsome
  exact ⟨y, hy, dropDupFirst_find? keyE l y (keyE x) hy⟩

theorem dedup_key_amended_witness :
    List.Pairwise (fun a b : Row => keyE a ≠ keyE b)
      (dedupEast [rowC5a, rowC5a, rowC5b]) ∧
    (∃ y, ([rowC5a, rowC5a, rowC5b].find?
        (fun z => decide (keyE z = keyE rowC5a))) = some y ∧
      y ∈ dedupEast [rowC5a, rowC5a, rowC5b]) :=
  ⟨(dedup_key_amended [rowC5a, rowC5a, rowC5b]).1,
    (dedup_key_amended [rowC5a, rowC5a, rowC5b]).2.2 rowC5a (by decide)⟩

/-- Master reference providing both `kg_cb = 3` and `speed = 10` for
material `M1` on line `AB`. -/
def masterC6 : List (String × String × MasterE) := [("M1", "AB", ⟨some 3, some 10⟩)]

/-- Raw sheet row for material `M1` on line `AB` carrying `Kg_TU = 2`. -/
def rawC6 : RawR := ⟨20454, "M1", "AB", some 2, 5⟩

/-- C6 counterexample: the reference provides a unit weight (`kg_cb = 3`)
for the row's material, yet the normalized record keeps the raw sheet value
`Kg_TU = 2`: the reference value does not take precedence for the unit
weight. -/
theorem merge_reference_counterexample :
    lookupMaster masterC6 "M1" "AB" = some ⟨some 3, some 10⟩ ∧
    (mergeEast masterC6 rawC6).kgTu = some 2 ∧
    ¬ (mergeEast masterC6 rawC6).kgTu = some 3 ∧
    (mergeEast masterC6 rawC6).speed = some 10 := by decide

/-- C6 amended: when the reference has an entry for `(material, line)`, the
normalized record's speed is the reference's speed (raw rows carry no
speed), while its unit weight is always the raw row's `Kg_TU`, even when
the reference provides `kg_cb`. -/
theorem merge_reference_amended (master : List (String × String × MasterE))
    (r : RawR) (e : MasterE)
    (h : lookupMaster master r.material r.line = some e) :
    (mergeEast master r).speed = e.speed ∧
    (mergeEast master r).kgTu = r.kgTu ∧
    (mergeEast master r).qty = r.qty := by
  refine ⟨?_, rfl, rfl⟩
  show (lookupMaster master r.material r.line).bind (fun e => e.speed) = e.speed
  rw [h]
  rfl

theorem merge_reference_amended_witness :
    (mergeEast masterC6 rawC6).speed = MasterE.speed ⟨some 3, some 10⟩ ∧
    (mergeEast masterC6 rawC6).kgTu = rawC6.kgTu ∧
    (mergeEast masterC6 rawC6).qty = rawC6.qty :=
  merge_reference_amended masterC6 rawC6 ⟨some 3, some 10⟩ (by decide)

/-- C7: for a base month between 1 and 12, the derived window is exactly
`{m0, (m0 mod 12)+1, ((m0 mod 12)+1 mod 12)+1}` (December wraps to
January), every output slot's finish month belongs to the window, and the
month extraction carries no year information (2026-01-01 and 2027-01-01
both give month 1). -/
theorem month_window_filter (m0 : Int) (h1 : 1 ≤ m0) (h2 : m0 ≤ 12) :
    monthSet m0 = [m0, m0 % 12 + 1, (m0 % 12 + 1) % 12 + 1] ∧
    (∀ (rs : List Row) (o : OutRow), o ∈ eastOutput (monthSet m0) rs →
      monthOf o.slot.fin ∈ monthSet m0) ∧
    monthOfDay 20454 = 1 ∧ monthOfDay 20819 = 1 := by
  refine ⟨?_, ?_, by decide, by decide⟩
  · rw [monthSet]
    have e1 : (m0 - 1 + 1) % 12 + 1 = m0 % 12 + 1 := by omega
    have e2 : (m0 - 1 + 2) % 12 + 1 = (m0 % 12 + 1) % 12 + 1 := by omega
    rw [e1, e2]
  · intro rs o ho
    obtain ⟨s, _, hw, rfl⟩ := mem_eastOutput _ rs o ho
    exact of_decide_eq_true hw

theorem month_window_filter_witness :
    monthSet 12 = [12, 12 % 12 + 1, (12 % 12 + 1) % 12 + 1] ∧
    monthOfDay 20454 = 1 :=
  ⟨(month_window_filter 12 (by decide) (by decide)).1,
    (month_window_filter 12 (by decide) (by decide)).2.2.1⟩

/-- C8: a record whose speed is missing or zero gets no `Days` value (the
guarded division never runs), its slot therefore has equal start and
finish, the slot still appears in the timeline, it appears in the output
whenever its finish month is in the window, and its release date is
computed from that finish instant. -/
theorem zero_speed_slot_rule :
    (∀ r : Row, r.speed = none ∨ r.speed = some 0 → daysOf r = none) ∧
    (∀ (rs : List Row) (r : Row), r ∈ rs →
      ∃ s ∈ eastTimeline rs, s.row = r ∧
        ((r.speed = none ∨ r.speed = some 0) → s.fin = s.start)) ∧
    (∀ (w : List Int) (rs : List Row) (s : Slot), s ∈ eastTimeline rs →
      monthOf s.fin ∈ w → annotate s ∈ eastOutput w rs) ∧
    (∀ s : Slot, (annotate s).releaseDay = dayOfInstant (calcReleaseTime s.fin)) := by
  have hdays : ∀ r : Row, r.speed = none ∨ r.speed = some 0 → daysOf r = none := by
    intro r h
    rcases h with h | h <;> simp [daysOf, prodHour, h]
  refine ⟨hdays, ?_, annotate_mem_eastOutput, fun _ => rfl⟩
  intro rs r hr
  obtain ⟨s, hs, hrow⟩ :=
    sched_mem_of_mem (lineInput rs) none r (mem_lineInput rs r hr)
  refine ⟨s, hs, hrow, ?_⟩
  intro hsp
  have hd : daysOf s.row = none := by rw [hrow]; exact hdays r hsp
  have hfin := sched_fin (lineInput rs) none s hs
  rw [hd] at hfin
  rw [hfin, qadd_eq, qmul_eq]
  simp

/-- Concrete speedless record for the C8 witness, dated 2026-02-28
(day 20512). -/
def rowC8 : Row := ⟨20512, "M", "AB", none, 5, none⟩

theorem zero_speed_slot_rule_witness :
    daysOf rowC8 = none ∧
    (∃ s ∈ eastTimeline [rowC8], s.row = rowC8 ∧
      ((rowC8.speed = none ∨ rowC8.speed = some 0) → s.fin = s.start)) ∧
    annotate ⟨rowC8, (492295 : ℚ), (492295 : ℚ)⟩ ∈ eastOutput [2, 3, 4] [rowC8] :=
  ⟨zero_speed_slot_rule.1 rowC8 (Or.inl rfl),
    zero_speed_slot_rule.2.1 [rowC8] rowC8 (by decide),
    zero_speed_slot_rule.2.2.1 [2, 3, 4] [rowC8] ⟨rowC8, 492295, 492295⟩
      (by decide) (by decide)⟩

/-- Concrete speedless record for the C9 witness, dated 2026-02-28; its
release lands on 5 March 2026. -/
def rowC9 : Row := ⟨20512, "M", "AB", none, 5, none⟩

/-- C9: the release identifier of every output row is the day, month and
year of its release date, each rendered as a decimal integer with no
leading zeros and concatenated without separators; in particular a release
on 5 March 2026 yields `"532026"`. -/
theorem release_ident_format :
    (∀ (w : List Int) (rs : List Row) (o : OutRow), o ∈ eastOutput w rs →
      o.releaseIdent =
        toString (civilFromDays o.releaseDay).2.2 ++
          toString (civilFromDays o.releaseDay).2.1 ++
          toString (civilFromDays o.releaseDay).1) ∧
    civilFromDays 20517 = (2026, 3, 5) ∧
    (eastOutput [2, 3, 4] [rowC9]).map (fun o => o.releaseIdent) = ["532026"] := by
  refine ⟨?_, by decide, by decide⟩
  intro w rs o ho
  obtain ⟨s, _, _, rfl⟩ := mem_eastOutput w rs o ho
  rfl

theorem release_ident_format_witness :
    (annotate ⟨rowC9, (492295 : ℚ), (492295 : ℚ)⟩).releaseIdent =
      toString (civilFromDays
        (annotate (⟨rowC9, (492295 : ℚ), (492295 : ℚ)⟩ : Slot)).releaseDay).2.2 ++
        toString (civilFromDays
          (annotate (⟨rowC9, (492295 : ℚ), (492295 : ℚ)⟩ : Slot)).releaseDay).2.1 ++
        toString (civilFromDays
          (annotate (⟨rowC9, (492295 : ℚ), (492295 : ℚ)⟩ : Slot)).releaseDay).1 :=
  release_ident_format.1 [2, 3, 4] [rowC9] _ (by decide)
